import Mathlib

/-!
Verification of hatchify/transaction-manager.

The repository is a Go transaction-coordination primitive (`src/manager.go`,
`src/txnFn.go`).  A `Manager` runs a caller-supplied business function while a
set of participant transaction functions execute concurrently around it:
participants signal "started" (a `sync.WaitGroup` barrier), the business
function runs, its result is broadcast to every participant over per-participant
1-buffered inbound channels, participants optionally report an error on a shared
outbound channel, signal "finished", and the manager drains the outbound channel
and returns either the business error or the combined participant errors.

Embedding choices:
* Go `error` values are `Option ε` (`none` is Go `nil`); the contents of the
  outbound error channel are plain `ε` values (participants send genuine errors).
* The concurrent episode (`Manager.run`, manager.go lines 48-81, together with
  `pushErrorToInbounds`, `newErrorsFromOutbound`, `openTxns`, `openTxn` and the
  participant contract) is embedded as a labelled transition system `Step` over
  states `St`; channels and `sync.WaitGroup` barriers are embedded by their
  standard Go semantics (a buffered channel is its buffer contents plus a closed
  flag; a wait-group barrier is the predicate "every participant has moved past
  the corresponding program point").  Temporal claims are safety invariants over
  all reachable states.
* The sequential tail of `run` (drain then business-error check) and the
  Manager's field discipline are additionally embedded as pure functions.
* The hatchify/errors `ErrorList` aggregator and the hatchify/queue scheduler
  are external collaborators not present under `src/`; they are modelled from
  the spec where needed.
-/

namespace TxnMgr

/-- Modelled from the spec: the error aggregator (hatchify/errors `ErrorList`),
an external collaborator not under `src/`.  Per spec section 6 it accumulates
pushed errors and produces a combined result. -/
structure ErrorList (ε : Type) : Type where
  errs : List ε
deriving DecidableEq

/-- Modelled from the spec: `push(error)` accumulates an error into the list. -/
def ErrorList.push {ε : Type} (el : ErrorList ε) (e : ε) : ErrorList ε :=
  ⟨el.errs ++ [e]⟩

/-- Modelled from the spec: `result()` "returns nil if nothing was pushed, the
single error if exactly one was pushed, or a combined multi-error value
otherwise" (spec section 6).  `combine` is the abstract multi-error combiner. -/
def ErrorList.err {ε : Type} (combine : List ε → ε) (el : ErrorList ε) : Option ε :=
  match el.errs with
  | [] => none
  | [e] => some e
  | es => some (combine es)

/-- Embeds `Manager.newErrorsFromOutbound` (manager.go lines 93-101): the loop
`for txnErr := range m.out { errs.Push(txnErr) }` drains every value of the
(already closed) outbound channel, in order, into a fresh aggregator. -/
def newErrorsFromOutbound {ε : Type} (outSent : List ε) : ErrorList ε :=
  outSent.foldl ErrorList.push ⟨[]⟩

/-- Embeds the sequential tail of `Manager.run` after `close(m.out)`
(manager.go lines 70-80): unconditionally drain the outbound channel into the
aggregator, then return the business error if non-nil, otherwise the
aggregator's combined result.  Returns (aggregator, returned error). -/
def runTailAux {ε : Type} (combine : List ε → ε) (bizErr : Option ε)
    (outSent : List ε) : ErrorList ε × Option ε :=
  let errs := newErrorsFromOutbound outSent
  (errs, if bizErr.isSome then bizErr else errs.err combine)

lemma foldl_push_errs {ε : Type} :
    ∀ (l : List ε) (el : ErrorList ε), (l.foldl ErrorList.push el).errs = el.errs ++ l := by
  intro l
  induction l with
  | nil => intro el; simp
  | cons e t ih => intro el; simp [List.foldl_cons, ErrorList.push, ih]

lemma newErrorsFromOutbound_errs {ε : Type} (l : List ε) :
    (newErrorsFromOutbound l).errs = l := by
  simp [newErrorsFromOutbound, foldl_push_errs]

lemma err_eq_none_iff {ε : Type} (combine : List ε → ε) (el : ErrorList ε) :
    el.err combine = none ↔ el.errs = [] := by
  rcases el with ⟨l⟩
  cases l with
  | nil => simp [ErrorList.err]
  | cons e t => cases t <;> simp [ErrorList.err]

lemma filterMap_ext_mem {α β : Type _} :
    ∀ (l : List α) (f g : α → Option β), (∀ a ∈ l, f a = g a) →
      l.filterMap f = l.filterMap g := by
  intro l
  induction l with
  | nil => intro f g _; rfl
  | cons a t ih =>
    intro f g h
    have ht := ih f g (fun b hb => h b (List.mem_cons_of_mem a hb))
    simp [List.filterMap_cons, h a (List.mem_cons_self a t), ht]

lemma filterMap_eq_nil_of_none {α β : Type _} :
    ∀ (l : List α) (f : α → Option β), (∀ a ∈ l, f a = none) →
      l.filterMap f = [] := by
  intro l
  induction l with
  | nil => intro f _; rfl
  | cons a t ih =>
    intro f h
    simp [List.filterMap_cons, h a (List.mem_cons_self a t),
      ih f (fun b hb => h b (List.mem_cons_of_mem a hb))]

/-- Updating one position of a filter-mapped function from `none` to a new value
permutes the result by appending that value's contribution. -/
lemma filterMap_update_perm {α β : Type _} :
    ∀ (l : List α), l.Nodup → ∀ (i : α), i ∈ l → ∀ (f g : α → Option β),
      (∀ j ∈ l, j ≠ i → g j = f j) → f i = none →
      List.Perm (l.filterMap g) (l.filterMap f ++ (g i).toList) := by
  intro l
  induction l with
  | nil => intro _ i hi; exact absurd hi (List.not_mem_nil i)
  | cons a t ih =>
    intro hnd i hi f g hfg hfi
    have hat : a ∉ t := (List.nodup_cons.mp hnd).1
    have hndt : t.Nodup := (List.nodup_cons.mp hnd).2
    rcases List.mem_cons.mp hi with hia | hit
    · subst hia
      have hft : ∀ j ∈ t, g j = f j := by
        intro j hj
        exact hfg j (List.mem_cons_of_mem _ hj) (fun hji => hat (hji ▸ hj))
      have hgt : t.filterMap g = t.filterMap f := filterMap_ext_mem t g f hft
      cases hgi : g i with
      | none =>
        simp [List.filterMap_cons, hgi, hfi, hgt]
      | some b =>
        simp only [List.filterMap_cons, hgi, hfi, hgt, Option.toList]
        exact @List.perm_append_comm _ [b] (t.filterMap f)
    · have hai : a ≠ i := fun h => hat (h ▸ hit)
      have hga : g a = f a := hfg a (List.mem_cons_self a t) hai
      have iht := ih hndt i hit f g
        (fun j hj hji => hfg j (List.mem_cons_of_mem a hj) hji) hfi
      cases hfa : f a with
      | none => simpa [List.filterMap_cons, hga, hfa] using iht
      | some b =>
        simp only [List.filterMap_cons, hga, hfa, List.cons_append]
        exact iht.cons b

/-- Phases of one participant's task inside an episode, following the
participant contract (spec section 3) and the task body submitted by `openTxn`
(manager.go lines 125-133): signal started (`start.Done()` inside the
transaction function), receive the outcome from the inbound channel, optionally
send an error on the outbound channel, then signal finished (`end.Done()`). -/
inductive PPhase (ε : Type) : Type where
  | idle : PPhase ε
  | started : PPhase ε
  | received : Option ε → PPhase ε
  | sentP : PPhase ε
  | finishedP : PPhase ε
deriving DecidableEq

/-- One inbound channel, `make(chan error, 1)` in `openTxn` (manager.go line
126): a single buffer slot, a closed flag, and history variables recording the
value sent over it and how many sends it ever received. -/
structure InChan (ε : Type) : Type where
  buf : Option (Option ε)
  pushed : Option (Option ε)
  sentCount : Nat
  closed : Bool
deriving DecidableEq

/-- The shared outbound channel, `make(chan error, len(m.fns))` in `initRun`
(manager.go line 43): list of values sent on it (in send order) and a closed
flag.  The manager only drains it after closing, so no values are removed. -/
structure OutChan (ε : Type) : Type where
  sent : List ε
  closed : Bool
deriving DecidableEq

/-- Control point of the manager inside `Manager.run` (manager.go lines 48-81):
`opening k` — `openTxns` has submitted the first `k` participant tasks to the
queue and, once all are submitted, blocks in `start.Wait()`; `pushing k` — the
business function has returned and `pushErrorToInbounds` has pushed its error
to the first `k` inbound channels; `done ret` — `done.Wait()` returned, the
outbound channel was closed and drained, and `run` returned `ret`. -/
inductive MPhase (ε : Type) : Type where
  | opening : Nat → MPhase ε
  | pushing : Nat → MPhase ε
  | done : Option ε → MPhase ε
deriving DecidableEq

/-- Global state of one episode with `n` participants. -/
structure St (ε : Type) (n : Nat) : Type where
  mp : MPhase ε
  ps : Fin n → PPhase ε
  ins : Fin n → InChan ε
  out : OutChan ε

/-- Parameters of one episode: the business function's eventual result, and
each participant's report — the error (if any) it sends on the outbound channel
as a function of the outcome it received on its inbound channel.  The
transaction-function bodies are caller-supplied (not in `src/`), so the report
functions are the participant contract of spec section 3, steps 3-5. -/
structure Sys (ε : Type) (n : Nat) : Type where
  bizErr : Option ε
  rep : Fin n → Option ε → Option ε

/-- A participant task may run once submitted to the queue by `openTxn`; the
queue (hatchify/queue, external collaborator) is modelled from the spec: every
submitted task runs on its own concurrent execution context (capacity equals
the participant count, spec sections 2 and 4). -/
def submitted {ε : Type} {n : Nat} (mp : MPhase ε) (i : Fin n) : Bool :=
  match mp with
  | .opening k => decide (i.val < k)
  | _ => true

/-- True once the manager has passed `start.Wait()` and invoked the business
function. -/
def bizInvoked {ε : Type} (mp : MPhase ε) : Bool :=
  match mp with
  | .opening _ => false
  | _ => true

/-- True once a participant has performed its inbound receive. -/
def pastRecv {ε : Type} (p : PPhase ε) : Bool :=
  match p with
  | .idle => false
  | .started => false
  | _ => true

/-- True once a participant has performed its outbound-send step. -/
def pastSend {ε : Type} (p : PPhase ε) : Bool :=
  match p with
  | .sentP => true
  | .finishedP => true
  | _ => false

/-- True in the returned phase. -/
def isDone {ε : Type} (mp : MPhase ε) : Bool :=
  match mp with
  | .done _ => true
  | _ => false

/-- Interleaving small-step semantics of one episode of `Manager.run`
(manager.go lines 48-81) with the participant contract.  Manager steps:
`submit` (the `openTxns` loop body, lines 110-115), `bizRun` (`start.Wait()`
returning followed by `err = run()`, lines 118 and 59), `push` (one iteration
of `pushErrorToInbounds`: send the business error on inbound channel `k`, then
close it, lines 85-90), `closeOut` (`done.Wait()` returning, `close(m.out)`,
the drain and the return, lines 65-80).  Participant steps for task `i`:
`pStart` (signal started), `pRecv`/`pRecvClosed` (receive the outcome from the
inbound channel — from the buffer, or `nil` if the channel is closed and
empty), `pSendErr`/`pSendNone` (send its report, if any, on the outbound
channel), `pFinish` (signal finished). -/
inductive Step {ε : Type} {n : Nat} (combine : List ε → ε) (sys : Sys ε n) :
    St ε n → St ε n → Prop where
  | submit (s : St ε n) (k : Nat) (hk : k < n) (hmp : s.mp = .opening k) :
      Step combine sys s { s with mp := .opening (k + 1) }
  | bizRun (s : St ε n) (hmp : s.mp = .opening n)
      (hst : ∀ j, s.ps j ≠ PPhase.idle) :
      Step combine sys s { s with mp := .pushing 0 }
  | push (s : St ε n) (k : Nat) (hk : k < n) (hmp : s.mp = .pushing k)
      (hbuf : (s.ins ⟨k, hk⟩).buf = none)
      (hcl : (s.ins ⟨k, hk⟩).closed = false) :
      Step combine sys s { s with
        mp := .pushing (k + 1),
        ins := fun j => if j = ⟨k, hk⟩ then
            { buf := some sys.bizErr, pushed := some sys.bizErr,
              sentCount := (s.ins j).sentCount + 1, closed := true }
          else s.ins j }
  | closeOut (s : St ε n) (hmp : s.mp = .pushing n)
      (hfin : ∀ j, s.ps j = PPhase.finishedP) :
      Step combine sys s { s with
        mp := .done (runTailAux combine sys.bizErr s.out.sent).2,
        out := { s.out with closed := true } }
  | pStart (s : St ε n) (i : Fin n) (hsub : submitted s.mp i = true)
      (hp : s.ps i = PPhase.idle) :
      Step combine sys s { s with
        ps := fun j => if j = i then PPhase.started else s.ps j }
  | pRecv (s : St ε n) (i : Fin n) (v : Option ε) (hp : s.ps i = PPhase.started)
      (hbuf : (s.ins i).buf = some v) :
      Step combine sys s { s with
        ps := fun j => if j = i then PPhase.received v else s.ps j,
        ins := fun j => if j = i then { s.ins j with buf := none } else s.ins j }
  | pRecvClosed (s : St ε n) (i : Fin n) (hp : s.ps i = PPhase.started)
      (hbuf : (s.ins i).buf = none) (hcl : (s.ins i).closed = true) :
      Step combine sys s { s with
        ps := fun j => if j = i then PPhase.received none else s.ps j }
  | pSendErr (s : St ε n) (i : Fin n) (v : Option ε) (e : ε)
      (hp : s.ps i = PPhase.received v) (he : sys.rep i v = some e)
      (hcap : s.out.sent.length < n) (hcl : s.out.closed = false) :
      Step combine sys s { s with
        ps := fun j => if j = i then PPhase.sentP else s.ps j,
        out := { s.out with sent := s.out.sent ++ [e] } }
  | pSendNone (s : St ε n) (i : Fin n) (v : Option ε)
      (hp : s.ps i = PPhase.received v) (he : sys.rep i v = none) :
      Step combine sys s { s with
        ps := fun j => if j = i then PPhase.sentP else s.ps j }
  | pFinish (s : St ε n) (i : Fin n) (hp : s.ps i = PPhase.sentP) :
      Step combine sys s { s with
        ps := fun j => if j = i then PPhase.finishedP else s.ps j }

/-- State at the top of `Manager.run`, after `initRun` (manager.go lines
39-46): no task submitted, all channels fresh and open, outbound empty. -/
def initSt (ε : Type) (n : Nat) : St ε n :=
  { mp := .opening 0
    ps := fun _ => .idle
    ins := fun _ => { buf := none, pushed := none, sentCount := 0, closed := false }
    out := { sent := [], closed := false } }

/-- States of the episode reachable from the start of `Manager.run` under any
interleaving. -/
def Reachable {ε : Type} {n : Nat} (combine : List ε → ε) (sys : Sys ε n)
    (s : St ε n) : Prop :=
  Relation.ReflTransGen (Step combine sys) (initSt ε n) s

/-- Per-channel invariant, by manager phase: before the broadcast an inbound
channel is fresh; during `pushErrorToInbounds` exactly the first `k` channels
carry the business error and are closed; at return every channel was sent the
business error exactly once and closed. -/
def chanAt {ε : Type} {n : Nat} (bizErr : Option ε) (mp : MPhase ε) (i : Fin n)
    (c : InChan ε) : Prop :=
  match mp with
  | .opening _ => c.pushed = none ∧ c.buf = none ∧ c.sentCount = 0 ∧ c.closed = false
  | .pushing k =>
      if i.val < k then c.pushed = some bizErr ∧ c.sentCount = 1 ∧ c.closed = true
      else c.pushed = none ∧ c.buf = none ∧ c.sentCount = 0 ∧ c.closed = false
  | .done _ => c.pushed = some bizErr ∧ c.sentCount = 1 ∧ c.closed = true

/-- Contribution of participant `i` to the outbound channel: its report on the
business outcome, once it has performed its outbound-send step. -/
def acctFun {ε : Type} {n : Nat} (sys : Sys ε n) (ps : Fin n → PPhase ε) :
    Fin n → Option ε :=
  fun i => if pastSend (ps i) = true then sys.rep i sys.bizErr else none

/-- Inductive invariant of the episode transition system. -/
structure Inv {ε : Type} {n : Nat} (combine : List ε → ε) (sys : Sys ε n)
    (s : St ε n) : Prop where
  biz_started : bizInvoked s.mp = true → ∀ j, s.ps j ≠ PPhase.idle
  chans : ∀ i, chanAt sys.bizErr s.mp i (s.ins i)
  buf_pushed : ∀ i v, (s.ins i).buf = some v → (s.ins i).pushed = some v
  consumed : ∀ i, (s.ins i).pushed.isSome = true → (s.ins i).buf = none →
      pastRecv (s.ps i) = true
  recv_val : ∀ i v, s.ps i = PPhase.received v → v = sys.bizErr
  out_closed : s.out.closed = true →
      (∀ j, s.ps j = PPhase.finishedP) ∧ isDone s.mp = true
  mp_done : ∀ r, s.mp = MPhase.done r →
      s.out.closed = true ∧ r = (runTailAux combine sys.bizErr s.out.sent).2
  acct : s.out.sent.Perm ((List.finRange n).filterMap (acctFun sys s.ps))

lemma chanAt_pushed {ε : Type} {n : Nat} {bizErr : Option ε} {mp : MPhase ε}
    {i : Fin n} {c : InChan ε} (h : chanAt bizErr mp i c) {v : Option ε}
    (hv : c.pushed = some v) : v = bizErr ∧ c.sentCount = 1 ∧ c.closed = true := by
  cases mp with
  | opening k =>
    simp only [chanAt] at h
    rw [h.1] at hv
    exact Option.noConfusion hv
  | pushing k =>
    simp only [chanAt] at h
    by_cases hik : i.val < k
    · rw [if_pos hik] at h
      rw [h.1] at hv
      exact ⟨(Option.some.inj hv).symm, h.2.1, h.2.2⟩
    · rw [if_neg hik] at h
      rw [h.1] at hv
      exact Option.noConfusion hv
  | done r =>
    simp only [chanAt] at h
    rw [h.1] at hv
    exact ⟨(Option.some.inj hv).symm, h.2.1, h.2.2⟩

lemma chanAt_closed {ε : Type} {n : Nat} {bizErr : Option ε} {mp : MPhase ε}
    {i : Fin n} {c : InChan ε} (h : chanAt bizErr mp i c) (hc : c.closed = true) :
    c.pushed = some bizErr := by
  cases mp with
  | opening k =>
    simp only [chanAt] at h
    rw [h.2.2.2] at hc
    exact Bool.noConfusion hc
  | pushing k =>
    simp only [chanAt] at h
    by_cases hik : i.val < k
    · rw [if_pos hik] at h; exact h.1
    · rw [if_neg hik] at h
      rw [h.2.2.2] at hc
      exact Bool.noConfusion hc
  | done r =>
    simp only [chanAt] at h
    exact h.1

lemma chanAt_buf_none {ε : Type} {n : Nat} {bizErr : Option ε} {mp : MPhase ε}
    {i : Fin n} {c : InChan ε} (h : chanAt bizErr mp i c) :
    chanAt bizErr mp i { c with buf := none } := by
  cases mp with
  | opening k => exact ⟨h.1, rfl, h.2.2.1, h.2.2.2⟩
  | pushing k =>
    simp only [chanAt] at h ⊢
    by_cases hik : i.val < k
    · rw [if_pos hik] at h ⊢; exact h
    · rw [if_neg hik] at h ⊢; exact ⟨h.1, trivial, h.2.2.1, h.2.2.2⟩
  | done r => exact h

lemma inv_init {ε : Type} {n : Nat} (combine : List ε → ε) (sys : Sys ε n) :
    Inv combine sys (initSt ε n) := by
  refine ⟨?_, ?_, ?_, ?_, ?_, ?_, ?_, ?_⟩
  · intro h; exact Bool.noConfusion h
  · intro i; exact ⟨rfl, rfl, rfl, rfl⟩
  · intro i v hv; exact Option.noConfusion hv
  · intro i h1 _; exact Bool.noConfusion h1
  · intro i v hv; exact PPhase.noConfusion hv
  · intro h; exact Bool.noConfusion h
  · intro r hr; exact MPhase.noConfusion hr
  · have hnil : (List.finRange n).filterMap (acctFun sys (initSt ε n).ps) = [] := by
      refine filterMap_eq_nil_of_none _ _ ?_
      intro a _
      simp [acctFun, initSt, pastSend]
    rw [hnil]
    exact List.Perm.refl _

lemma acct_congr {ε : Type} {n : Nat} {sys : Sys ε n} {ps1 ps2 : Fin n → PPhase ε}
    (h : ∀ j, acctFun sys ps1 j = acctFun sys ps2 j) {sent : List ε}
    (hp : sent.Perm ((List.finRange n).filterMap (acctFun sys ps1))) :
    sent.Perm ((List.finRange n).filterMap (acctFun sys ps2)) := by
  rw [← filterMap_ext_mem (List.finRange n) (acctFun sys ps1) (acctFun sys ps2)
    (fun a _ => h a)]
  exact hp

lemma ne_idle_update {ε : Type} {n : Nat} {ps : Fin n → PPhase ε} {i : Fin n}
    {p : PPhase ε} (hp : p ≠ PPhase.idle) (hall : ∀ j, ps j ≠ PPhase.idle) :
    ∀ j, (fun j2 => if j2 = i then p else ps j2) j ≠ PPhase.idle := by
  intro j
  by_cases hj : j = i
  · simpa [hj] using hp
  · simpa [hj] using hall j

lemma recv_val_update {ε : Type} {n : Nat} {sys : Sys ε n} {ps : Fin n → PPhase ε}
    {i : Fin n} {p : PPhase ε} (hnr : ∀ v, p ≠ PPhase.received v)
    (hold : ∀ i0 v, ps i0 = PPhase.received v → v = sys.bizErr) :
    ∀ i0 v, (fun j2 => if j2 = i then p else ps j2) i0 = PPhase.received v →
      v = sys.bizErr := by
  intro i0 v h
  have h2 : (if i0 = i then p else ps i0) = PPhase.received v := h
  by_cases hj : i0 = i
  · rw [if_pos hj] at h2; exact absurd h2 (hnr v)
  · rw [if_neg hj] at h2; exact hold i0 v h2

lemma consumed_update_true {ε : Type} {n : Nat} {ins : Fin n → InChan ε}
    {ps : Fin n → PPhase ε} {i : Fin n} {p : PPhase ε} (hpr : pastRecv p = true)
    (hold : ∀ i0, (ins i0).pushed.isSome = true → (ins i0).buf = none →
      pastRecv (ps i0) = true) :
    ∀ i0, (ins i0).pushed.isSome = true → (ins i0).buf = none →
      pastRecv ((fun j2 => if j2 = i then p else ps j2) i0) = true := by
  intro i0 h1 h2
  show pastRecv (if i0 = i then p else ps i0) = true
  by_cases hj : i0 = i
  · rw [if_pos hj]; exact hpr
  · rw [if_neg hj]; exact hold i0 h1 h2

lemma acctFun_update_same {ε : Type} {n : Nat} {sys : Sys ε n}
    {ps : Fin n → PPhase ε} {i : Fin n} {p : PPhase ε}
    (hsame : pastSend p = pastSend (ps i)) :
    ∀ j, acctFun sys ps j = acctFun sys (fun j2 => if j2 = i then p else ps j2) j := by
  intro j
  by_cases hj : j = i
  · subst hj; simp [acctFun, hsame]
  · simp [acctFun, hj]

lemma acctFun_update_none {ε : Type} {n : Nat} {sys : Sys ε n}
    {ps : Fin n → PPhase ε} {i : Fin n} (hold : pastSend (ps i) = false)
    (hrep : sys.rep i sys.bizErr = none) :
    ∀ j, acctFun sys ps j =
      acctFun sys (fun j2 => if j2 = i then PPhase.sentP else ps j2) j := by
  intro j
  by_cases hj : j = i
  · subst hj; simp [acctFun, hold, hrep, pastSend]
  · simp [acctFun, hj]

/-- One step of the episode preserves the invariant. -/
lemma chanAt_pushing_intro {ε : Type} {n : Nat} {bizErr : Option ε} {k : Nat}
    {i : Fin n} {c : InChan ε}
    (h1 : i.val < k → c.pushed = some bizErr ∧ c.sentCount = 1 ∧ c.closed = true)
    (h2 : ¬(i.val < k) →
      c.pushed = none ∧ c.buf = none ∧ c.sentCount = 0 ∧ c.closed = false) :
    chanAt bizErr (MPhase.pushing k) i c := by
  simp only [chanAt]
  by_cases hik : i.val < k
  · rw [if_pos hik]; exact h1 hik
  · rw [if_neg hik]; exact h2 hik

lemma chanAt_pushing_lt {ε : Type} {n : Nat} {bizErr : Option ε} {k : Nat}
    {i : Fin n} {c : InChan ε} (h : chanAt bizErr (MPhase.pushing k) i c)
    (hik : i.val < k) :
    c.pushed = some bizErr ∧ c.sentCount = 1 ∧ c.closed = true := by
  simp only [chanAt] at h
  rwa [if_pos hik] at h

lemma chanAt_pushing_ge {ε : Type} {n : Nat} {bizErr : Option ε} {k : Nat}
    {i : Fin n} {c : InChan ε} (h : chanAt bizErr (MPhase.pushing k) i c)
    (hik : ¬(i.val < k)) :
    c.pushed = none ∧ c.buf = none ∧ c.sentCount = 0 ∧ c.closed = false := by
  simp only [chanAt] at h
  rwa [if_neg hik] at h

/-- One step of the episode preserves the invariant. -/
lemma inv_step {ε : Type} {n : Nat} {combine : List ε → ε} {sys : Sys ε n}
    {s s2 : St ε n} (inv : Inv combine sys s) (hstep : Step combine sys s s2) :
    Inv combine sys s2 := by
  cases hstep with
  | submit k hk hmp =>
    refine ⟨?_, ?_, inv.buf_pushed, inv.consumed, inv.recv_val, ?_, ?_, inv.acct⟩
    · intro hb; exact Bool.noConfusion hb
    · intro i
      have hold := inv.chans i
      rw [hmp] at hold
      exact hold
    · intro hcl
      have h2 := (inv.out_closed hcl).2
      rw [hmp] at h2
      exact Bool.noConfusion h2
    · intro r hr; exact MPhase.noConfusion hr
  | bizRun hmp hst =>
    refine ⟨?_, ?_, inv.buf_pushed, inv.consumed, inv.recv_val, ?_, ?_, inv.acct⟩
    · intro _; exact hst
    · intro i
      have hold := inv.chans i
      rw [hmp] at hold
      exact chanAt_pushing_intro (fun h => absurd h (Nat.not_lt_zero _))
        (fun _ => hold)
    · intro hcl
      have h2 := (inv.out_closed hcl).2
      rw [hmp] at h2
      exact Bool.noConfusion h2
    · intro r hr; exact MPhase.noConfusion hr
  | push k hk hmp hbuf hcl =>
    have hself : ¬((⟨k, hk⟩ : Fin n).val < k) := Nat.lt_irrefl k
    have holdk := inv.chans ⟨k, hk⟩
    rw [hmp] at holdk
    have holdk2 := chanAt_pushing_ge holdk hself
    refine ⟨?_, ?_, ?_, ?_, inv.recv_val, ?_, ?_, inv.acct⟩
    · intro _ j
      exact inv.biz_started (by rw [hmp]; rfl) j
    · intro i
      show chanAt sys.bizErr (MPhase.pushing (k + 1)) i
        (if i = ⟨k, hk⟩ then
          { buf := some sys.bizErr, pushed := some sys.bizErr,
            sentCount := (s.ins i).sentCount + 1, closed := true }
         else s.ins i)
      by_cases hi : i = ⟨k, hk⟩
      · rw [if_pos hi]
        have hik : i.val < k + 1 := by rw [hi]; exact Nat.lt_succ_self k
        have hcnt : (s.ins i).sentCount = 0 := by rw [hi]; exact holdk2.2.2.1
        exact chanAt_pushing_intro
          (fun _ => ⟨rfl, by rw [hcnt], rfl⟩) (fun h => absurd hik h)
      · rw [if_neg hi]
        have hvne : i.val ≠ k := fun hv => hi (Fin.ext hv)
        have hold := inv.chans i
        rw [hmp] at hold
        refine chanAt_pushing_intro (fun hik => ?_) (fun hik => ?_)
        · have hik0 : i.val < k := by
            rcases Nat.lt_succ_iff_lt_or_eq.mp hik with h | h
            · exact h
            · exact absurd h hvne
          exact chanAt_pushing_lt hold hik0
        · exact chanAt_pushing_ge hold (fun hlt => hik (Nat.lt_succ_of_lt hlt))
    · intro i v hv
      have hv2 : (if i = ⟨k, hk⟩ then
          { buf := some sys.bizErr, pushed := some sys.bizErr,
            sentCount := (s.ins i).sentCount + 1, closed := true }
         else s.ins i).buf = some v := hv
      show (if i = ⟨k, hk⟩ then
          { buf := some sys.bizErr, pushed := some sys.bizErr,
            sentCount := (s.ins i).sentCount + 1, closed := true }
         else s.ins i).pushed = some v
      by_cases hi : i = ⟨k, hk⟩
      · rw [if_pos hi] at hv2 ⊢
        exact hv2
      · rw [if_neg hi] at hv2 ⊢
        exact inv.buf_pushed i v hv2
    · intro i h1 h2
      have h2b : (if i = ⟨k, hk⟩ then
          { buf := some sys.bizErr, pushed := some sys.bizErr,
            sentCount := (s.ins i).sentCount + 1, closed := true }
         else s.ins i).buf = none := h2
      have h1b : (if i = ⟨k, hk⟩ then
          { buf := some sys.bizErr, pushed := some sys.bizErr,
            sentCount := (s.ins i).sentCount + 1, closed := true }
         else s.ins i).pushed.isSome = true := h1
      by_cases hi : i = ⟨k, hk⟩
      · rw [if_pos hi] at h2b
        exact Option.noConfusion h2b
      · rw [if_neg hi] at h1b h2b
        exact inv.consumed i h1b h2b
    · intro hcl2
      have h2 := (inv.out_closed hcl2).2
      rw [hmp] at h2
      exact Bool.noConfusion h2
    · intro r hr; exact MPhase.noConfusion hr
  | closeOut hmp hfin =>
    refine ⟨?_, ?_, inv.buf_pushed, inv.consumed, inv.recv_val, ?_, ?_, inv.acct⟩
    · intro _ j
      exact inv.biz_started (by rw [hmp]; rfl) j
    · intro i
      have hold := inv.chans i
      rw [hmp] at hold
      exact chanAt_pushing_lt hold i.isLt
    · intro _
      exact ⟨hfin, rfl⟩
    · intro r hr
      have hinj := MPhase.done.inj hr
      exact ⟨rfl, hinj.symm⟩
  | pStart i hsub hp =>
    refine ⟨?_, inv.chans, inv.buf_pushed, ?_, ?_, ?_, inv.mp_done, ?_⟩
    · intro hb
      exact ne_idle_update (by simp) (inv.biz_started hb)
    · intro i0 h1 h2
      show pastRecv (if i0 = i then PPhase.started else s.ps i0) = true
      by_cases hj : i0 = i
      · have hc := inv.consumed i0 h1 h2
        rw [hj, hp] at hc
        exact Bool.noConfusion hc
      · rw [if_neg hj]
        exact inv.consumed i0 h1 h2
    · exact recv_val_update (fun v => by simp) inv.recv_val
    · intro hcl
      have h2 := (inv.out_closed hcl).1 i
      rw [hp] at h2
      exact PPhase.noConfusion h2
    · exact acct_congr (acctFun_update_same (by rw [hp]; rfl)) inv.acct
  | pRecv i v hp hbuf =>
    have hpv : (s.ins i).pushed = some v := inv.buf_pushed i v hbuf
    have hvb : v = sys.bizErr := (chanAt_pushed (inv.chans i) hpv).1
    refine ⟨?_, ?_, ?_, ?_, ?_, ?_, inv.mp_done, ?_⟩
    · intro hb
      exact ne_idle_update (by simp) (inv.biz_started hb)
    · intro i0
      show chanAt sys.bizErr s.mp i0
        (if i0 = i then { s.ins i0 with buf := none } else s.ins i0)
      by_cases hj : i0 = i
      · rw [if_pos hj]
        exact chanAt_buf_none (inv.chans i0)
      · rw [if_neg hj]
        exact inv.chans i0
    · intro i0 v0 hv0
      have hv1 : (if i0 = i then { s.ins i0 with buf := none }
          else s.ins i0).buf = some v0 := hv0
      show (if i0 = i then { s.ins i0 with buf := none }
          else s.ins i0).pushed = some v0
      by_cases hj : i0 = i
      · rw [if_pos hj] at hv1
        exact Option.noConfusion hv1
      · rw [if_neg hj] at hv1 ⊢
        exact inv.buf_pushed i0 v0 hv1
    · intro i0 h1 h2
      have h1b : (if i0 = i then { s.ins i0 with buf := none }
          else s.ins i0).pushed.isSome = true := h1
      have h2b : (if i0 = i then { s.ins i0 with buf := none }
          else s.ins i0).buf = none := h2
      show pastRecv (if i0 = i then PPhase.received v else s.ps i0) = true
      by_cases hj : i0 = i
      · rw [if_pos hj]; rfl
      · rw [if_neg hj]
        rw [if_neg hj] at h1b h2b
        exact inv.consumed i0 h1b h2b
    · intro i0 v0 hv0
      have hv1 : (if i0 = i then PPhase.received v else s.ps i0)
          = PPhase.received v0 := hv0
      by_cases hj : i0 = i
      · rw [if_pos hj] at hv1
        have := PPhase.received.inj hv1
        rw [← this]
        exact hvb
      · rw [if_neg hj] at hv1
        exact inv.recv_val i0 v0 hv1
    · intro hcl
      have h2 := (inv.out_closed hcl).1 i
      rw [hp] at h2
      exact PPhase.noConfusion h2
    · exact acct_congr (acctFun_update_same (by rw [hp]; rfl)) inv.acct
  | pRecvClosed i hp hbuf hcl =>
    exfalso
    have hpu := chanAt_closed (inv.chans i) hcl
    have hps := inv.consumed i (by rw [hpu]; rfl) hbuf
    rw [hp] at hps
    exact Bool.noConfusion hps
  | pSendErr i v e hp he hcap hcl =>
    have hvb : v = sys.bizErr := inv.recv_val i v hp
    refine ⟨?_, inv.chans, inv.buf_pushed, ?_, ?_, ?_, ?_, ?_⟩
    · intro hb
      exact ne_idle_update (by simp) (inv.biz_started hb)
    · exact consumed_update_true rfl inv.consumed
    · exact recv_val_update (fun v0 => by simp) inv.recv_val
    · intro hcl2
      have hcl3 : s.out.closed = true := hcl2
      rw [hcl] at hcl3
      exact Bool.noConfusion hcl3
    · intro r hr
      have hd := (inv.mp_done r hr).1
      rw [hcl] at hd
      exact Bool.noConfusion hd
    · have hfi : acctFun sys s.ps i = none := by
        simp [acctFun, hp, pastSend]
      have hgi : acctFun sys
          (fun j2 => if j2 = i then PPhase.sentP else s.ps j2) i = some e := by
        show (if pastSend (if i = i then PPhase.sentP else s.ps i) = true
          then sys.rep i sys.bizErr else none) = some e
        rw [if_pos rfl]
        rw [if_pos (show pastSend (PPhase.sentP : PPhase ε) = true from rfl), ← hvb]
        exact he
      have hperm := filterMap_update_perm (List.finRange n) (List.nodup_finRange n)
        i (List.mem_finRange i) (acctFun sys s.ps)
        (acctFun sys (fun j2 => if j2 = i then PPhase.sentP else s.ps j2))
        (fun j _ hji => by simp [acctFun, hji]) hfi
      rw [hgi] at hperm
      exact (inv.acct.append_right [e]).trans hperm.symm
  | pSendNone i v hp he =>
    have hvb : v = sys.bizErr := inv.recv_val i v hp
    have hrep : sys.rep i sys.bizErr = none := by rw [← hvb]; exact he
    refine ⟨?_, inv.chans, inv.buf_pushed, ?_, ?_, ?_, inv.mp_done, ?_⟩
    · intro hb
      exact ne_idle_update (by simp) (inv.biz_started hb)
    · exact consumed_update_true rfl inv.consumed
    · exact recv_val_update (fun v0 => by simp) inv.recv_val
    · intro hcl
      have h2 := (inv.out_closed hcl).1 i
      rw [hp] at h2
      exact PPhase.noConfusion h2
    · exact acct_congr (acctFun_update_none (by rw [hp]; rfl) hrep) inv.acct
  | pFinish i hp =>
    refine ⟨?_, inv.chans, inv.buf_pushed, ?_, ?_, ?_, inv.mp_done, ?_⟩
    · intro hb
      exact ne_idle_update (by simp) (inv.biz_started hb)
    · exact consumed_update_true rfl inv.consumed
    · exact recv_val_update (fun v0 => by simp) inv.recv_val
    · intro hcl
      have h2 := (inv.out_closed hcl).1 i
      rw [hp] at h2
      exact PPhase.noConfusion h2
    · exact acct_congr (acctFun_update_same (by rw [hp]; rfl)) inv.acct

lemma inv_of_reachable {ε : Type} {n : Nat} {combine : List ε → ε} {sys : Sys ε n}
    {s : St ε n} (h : Reachable combine sys s) : Inv combine sys s := by
  induction h with
  | refl => exact inv_init combine sys
  | tail _ hstep ih => exact inv_step ih hstep

lemma forall_none_of_filterMap_eq_nil {α β : Type _} (l : List α) (f : α → Option β)
    (h : l.filterMap f = []) : ∀ a ∈ l, f a = none := by
  intro a ha
  cases hfa : f a with
  | none => rfl
  | some b =>
    have hb : b ∈ l.filterMap f := List.mem_filterMap.mpr ⟨a, ha, hfa⟩
    rw [h] at hb
    exact absurd hb (List.not_mem_nil b)

lemma acct_done {ε : Type} {n : Nat} {combine : List ε → ε} {sys : Sys ε n}
    {s : St ε n} (inv : Inv combine sys s)
    (hfin : ∀ j, s.ps j = PPhase.finishedP) :
    s.out.sent.Perm ((List.finRange n).filterMap fun i => sys.rep i sys.bizErr) := by
  have hext : ∀ a ∈ List.finRange n,
      acctFun sys s.ps a = sys.rep a sys.bizErr := by
    intro a _
    show (if pastSend (s.ps a) = true then sys.rep a sys.bizErr else none) = _
    rw [hfin a]
    exact if_pos (show pastSend (PPhase.finishedP : PPhase ε) = true from rfl)
  rw [← filterMap_ext_mem (List.finRange n) (acctFun sys s.ps)
    (fun i => sys.rep i sys.bizErr) hext]
  exact inv.acct

/-- C1.  `Run` returns the business function's error verbatim when it is
non-nil (participant reports are discarded); otherwise it returns the
aggregator's combination of exactly the errors the participants sent on the
outbound channel (a permutation of all participant reports), and that result
is nil exactly when no participant reported an error (manager.go lines 48-81
and 93-101). -/
theorem run_returns_biz_error_or_combined {ε : Type} {n : Nat}
    (combine : List ε → ε) (sys : Sys ε n) (s : St ε n) (ret : Option ε)
    (h : Reachable combine sys s) (hd : s.mp = MPhase.done ret) :
    (∀ e, sys.bizErr = some e → ret = some e)
    ∧ (sys.bizErr = none →
        ret = (newErrorsFromOutbound s.out.sent).err combine
        ∧ s.out.sent.Perm ((List.finRange n).filterMap fun i => sys.rep i sys.bizErr)
        ∧ ((∀ i, sys.rep i sys.bizErr = none) → ret = none))
    ∧ (ret = none → sys.bizErr = none ∧ ∀ i, sys.rep i sys.bizErr = none) := by
  have inv := inv_of_reachable h
  obtain ⟨hcl, hret⟩ := inv.mp_done ret hd
  have hfin := (inv.out_closed hcl).1
  have hacc := acct_done inv hfin
  have hbiz : ∀ e, sys.bizErr = some e → ret = some e := by
    intro e hbe
    rw [hret]
    simp [runTailAux, hbe]
  have hnil : sys.bizErr = none →
      ret = (newErrorsFromOutbound s.out.sent).err combine := by
    intro hbe
    rw [hret]
    simp [runTailAux, hbe]
  refine ⟨hbiz, ?_, ?_⟩
  · intro hbe
    refine ⟨hnil hbe, hacc, ?_⟩
    intro hall
    have hfm : (List.finRange n).filterMap (fun i => sys.rep i sys.bizErr) = [] :=
      filterMap_eq_nil_of_none _ _ (fun a _ => hall a)
    have hsent : s.out.sent = [] := (hfm ▸ hacc).eq_nil
    rw [hnil hbe]
    rw [err_eq_none_iff, newErrorsFromOutbound_errs]
    exact hsent
  · intro hrn
    cases hbe : sys.bizErr with
    | some e =>
      rw [hbiz e hbe] at hrn
      exact Option.noConfusion hrn
    | none =>
      refine ⟨rfl, ?_⟩
      have hsent : s.out.sent = [] := by
        have h1 := hnil hbe
        rw [hrn] at h1
        have h2 := (err_eq_none_iff combine (newErrorsFromOutbound s.out.sent)).mp h1.symm
        rwa [newErrorsFromOutbound_errs] at h2
      have hfm : (List.finRange n).filterMap (fun i => sys.rep i sys.bizErr) = [] :=
        (hsent ▸ hacc.symm).eq_nil
      intro i
      exact hbe ▸ forall_none_of_filterMap_eq_nil _ _ hfm i (List.mem_finRange i)

/-- C2.  In every reachable state, the business function has been invoked only
after all participants signaled started; any value ever delivered on an
inbound channel is the business function's result and was delivered only after
all participants signaled started; and when `run` has returned, every inbound
channel received exactly one value, equal to the business result
(manager.go lines 83-91 and 103-123). -/
theorem inbound_exactly_once_after_started {ε : Type} {n : Nat}
    (combine : List ε → ε) (sys : Sys ε n) (s : St ε n)
    (h : Reachable combine sys s) :
    (bizInvoked s.mp = true → ∀ j, s.ps j ≠ PPhase.idle)
    ∧ (∀ i v, (s.ins i).pushed = some v →
        v = sys.bizErr ∧ (s.ins i).sentCount = 1 ∧ (∀ j, s.ps j ≠ PPhase.idle))
    ∧ (∀ ret, s.mp = MPhase.done ret →
        ∀ i, (s.ins i).pushed = some sys.bizErr ∧ (s.ins i).sentCount = 1) := by
  have inv := inv_of_reachable h
  refine ⟨inv.biz_started, ?_, ?_⟩
  · intro i v hv
    obtain ⟨hvb, hcnt, _⟩ := chanAt_pushed (inv.chans i) hv
    have hbi : bizInvoked s.mp = true := by
      cases hmp : s.mp with
      | opening k =>
        have hc := inv.chans i
        rw [hmp] at hc
        rw [hc.1] at hv
        exact Option.noConfusion hv
      | pushing k => rfl
      | done r => rfl
    exact ⟨hvb, hcnt, inv.biz_started hbi⟩
  · intro ret hd i
    have hc := inv.chans i
    rw [hd] at hc
    exact ⟨hc.1, hc.2.1⟩

/-- C5.  In every reachable state, the shared outbound channel is closed only
after every participant has signaled finished, and `run` has returned only
after every participant has signaled finished (manager.go lines 64-68 and
103-123). -/
theorem out_close_and_return_after_finished {ε : Type} {n : Nat}
    (combine : List ε → ε) (sys : Sys ε n) (s : St ε n)
    (h : Reachable combine sys s) :
    (s.out.closed = true → ∀ j, s.ps j = PPhase.finishedP)
    ∧ (∀ ret, s.mp = MPhase.done ret →
        (∀ j, s.ps j = PPhase.finishedP) ∧ s.out.closed = true) := by
  have inv := inv_of_reachable h
  refine ⟨fun hcl => (inv.out_closed hcl).1, ?_⟩
  intro ret hd
  have hcl := (inv.mp_done ret hd).1
  exact ⟨(inv.out_closed hcl).1, hcl⟩

/-- C7.  With zero participants, `run` is a pass-through: whatever it returns
equals the business function's result exactly (manager.go lines 39-46 and
48-81; the loops over `m.fns` and `m.ins` are empty and the barriers are
trivially satisfied). -/
theorem zero_participants_passthrough {ε : Type} (combine : List ε → ε)
    (sys : Sys ε 0) (s : St ε 0) (ret : Option ε)
    (h : Reachable combine sys s) (hd : s.mp = MPhase.done ret) :
    ret = sys.bizErr := by
  have inv := inv_of_reachable h
  obtain ⟨hcl, hret⟩ := inv.mp_done ret hd
  have hsent : s.out.sent = [] := by
    have hacc := inv.acct
    rw [List.finRange_zero, List.filterMap_nil] at hacc
    exact hacc.eq_nil
  rw [hret, hsent]
  cases hbe : sys.bizErr with
  | some e => simp [runTailAux, hbe]
  | none => simp [runTailAux, hbe, newErrorsFromOutbound, ErrorList.err]

/-- C10.  The broadcast never blocks: whenever the manager is about to send on
inbound channel `k` (phase `pushing k`), that channel's one-slot buffer is
empty, the channel is open, and it has never been sent to, so the send in
`pushErrorToInbounds` succeeds immediately; moreover every inbound channel
receives at most one send, and exactly one by the time it is closed
(manager.go lines 83-91 and 125-133). -/
theorem push_never_blocks {ε : Type} {n : Nat} (combine : List ε → ε)
    (sys : Sys ε n) (s : St ε n) (h : Reachable combine sys s) :
    (∀ k (hk : k < n), s.mp = MPhase.pushing k →
        (s.ins ⟨k, hk⟩).buf = none ∧ (s.ins ⟨k, hk⟩).closed = false
        ∧ (s.ins ⟨k, hk⟩).sentCount = 0)
    ∧ (∀ i, (s.ins i).sentCount ≤ 1)
    ∧ (∀ i, (s.ins i).closed = true → (s.ins i).sentCount = 1) := by
  have inv := inv_of_reachable h
  refine ⟨?_, ?_, ?_⟩
  · intro k hk hmp
    have hc := inv.chans ⟨k, hk⟩
    rw [hmp] at hc
    have hge := chanAt_pushing_ge hc (Nat.lt_irrefl k)
    exact ⟨hge.2.1, hge.2.2.2, hge.2.2.1⟩
  · intro i
    cases hmp : s.mp with
    | opening k =>
      have hc := inv.chans i
      rw [hmp] at hc
      rw [hc.2.2.1]
      exact Nat.zero_le 1
    | pushing k =>
      have hc := inv.chans i
      rw [hmp] at hc
      by_cases hik : i.val < k
      · rw [(chanAt_pushing_lt hc hik).2.1]
      · rw [(chanAt_pushing_ge hc hik).2.2.1]
        exact Nat.zero_le 1
    | done r =>
      have hc := inv.chans i
      rw [hmp] at hc
      rw [hc.2.1]
  · intro i hcl
    have hpu := chanAt_closed (inv.chans i) hcl
    exact (chanAt_pushed (inv.chans i) hpu).2.1

/-- C6.  The outbound channel is drained fully into the error aggregator
before `run` decides what to return: the aggregator receives every value sent
on the channel regardless of the business error, the drained aggregator is
independent of the business error, and the returned value is the
business-error check applied to the already-drained aggregator (manager.go
lines 67-80 and 93-101). -/
theorem drain_unconditional {ε : Type} (combine : List ε → ε)
    (bizErr : Option ε) (outSent : List ε) :
    (runTailAux combine bizErr outSent).1.errs = outSent
    ∧ (runTailAux combine bizErr outSent).1 = (runTailAux combine none outSent).1
    ∧ (runTailAux combine bizErr outSent).2 =
        (if bizErr.isSome then bizErr
         else ErrorList.err combine (runTailAux combine bizErr outSent).1) :=
  ⟨newErrorsFromOutbound_errs outSent, rfl, rfl⟩

/-- Functional embedding of the `Manager` struct (manager.go lines 17-27).
`fns` holds the participant transaction functions supplied to `New`, each
embedded by its report behaviour (the error it sends on the outbound channel
as a function of the outcome it receives); `q` is the hatchify/queue scheduler
reference, embedded by its capacity; `out` is the outbound channel reference,
embedded by its contents; `ins` is the inbound-channel slice.  `none` is a Go
nil reference. -/
structure Manager (ε : Type) : Type where
  fns : List (Option ε → Option ε)
  q : Option Nat
  out : Option (List ε)
  ins : Option (List (InChan ε))

/-- Embeds `New` (manager.go lines 10-15): stores the variadic participant
functions; the per-episode fields are Go zero values (nil). -/
def New {ε : Type} (fns : List (Option ε → Option ε)) : Manager ε :=
  { fns := fns, q := none, out := none, ins := none }

/-- Embeds `initRun` (manager.go lines 39-46): a fresh queue with capacity
`len(m.fns)`, a fresh outbound channel buffered to `len(m.fns)`, an empty
inbound-channel slice. -/
def Manager.initRunM {ε : Type} (m : Manager ε) : Manager ε :=
  { m with q := some m.fns.length, out := some [], ins := some [] }

/-- Embeds `teardown` (manager.go lines 135-143): closes the queue and sets
the three per-episode references to nil. -/
def Manager.teardownM {ε : Type} (m : Manager ε) : Manager ε :=
  { m with q := none, ins := none, out := none }

/-- Functional embedding of one episode `Manager.run` (manager.go lines 48-81)
under the canonical schedule in which participants report in index order after
the broadcast.  The interleaving-faithful semantics is `Step`; by
`run_returns_biz_error_or_combined` the outbound contents under any
interleaving is a permutation of this canonical one, and the returned value is
computed by the same `runTailAux`.  Each participant's inbound channel ends up
pushed-once and closed; the deferred `teardown` runs before `run` returns. -/
def Manager.runM {ε : Type} (combine : List ε → ε) (m : Manager ε)
    (bizErr : Option ε) : Manager ε × Option ε :=
  let m1 := m.initRunM
  let m2 := { m1 with ins := some (m1.fns.map fun _ =>
      ({ buf := none, pushed := none, sentCount := 0, closed := false } : InChan ε)) }
  let outSent := m2.fns.filterMap fun f => f bizErr
  let m3 := { m2 with
      out := some outSent,
      ins := some (m2.fns.map fun _ =>
        ({ buf := none, pushed := some bizErr, sentCount := 1,
           closed := true } : InChan ε)) }
  let ret := (runTailAux combine bizErr outSent).2
  (m3.teardownM, ret)

/-- Embeds `Manager.Run` (manager.go lines 30-37): acquire the mutex (its
serialization effect is `run_mutual_exclusion`; it has no functional effect),
call the internal `run`, release the mutex on return.  `Run` takes only the
business function. -/
def Manager.Run {ε : Type} (combine : List ε → ε) (m : Manager ε)
    (bizErr : Option ε) : Manager ε × Option ε :=
  m.runM combine bizErr

/-- C9.  An episode never modifies the participant list stored by `New`: after
`Run` returns, `fns` is unchanged and the per-episode fields `q`, `out`, `ins`
are nil again, so a subsequent episode on the same Manager runs the identical
participant set and returns the same result as on the original Manager
(manager.go lines 10-15, 48-81, 135-143). -/
theorem run_preserves_fns {ε : Type} (combine : List ε → ε) (m : Manager ε)
    (bizErr : Option ε) :
    (Manager.Run combine m bizErr).1.fns = m.fns
    ∧ (Manager.Run combine m bizErr).1.q = none
    ∧ (Manager.Run combine m bizErr).1.out = none
    ∧ (Manager.Run combine m bizErr).1.ins = none
    ∧ (∀ b2, (Manager.Run combine (Manager.Run combine m bizErr).1 b2).2
        = (Manager.Run combine m b2).2) :=
  ⟨rfl, rfl, rfl, rfl, fun _ => rfl⟩

/-- C4 amended.  The sole entry point `Manager.Run` takes only the business
function and returns an error; the participants of the episode are exactly the
transaction functions supplied variadically to `New` and stored on the
Manager (manager.go lines 10-15 and 30-37). -/
theorem run_uses_new_fns {ε : Type} (combine : List ε → ε)
    (fns : List (Option ε → Option ε)) (bizErr : Option ε) :
    (Manager.Run combine (New fns) bizErr).2
      = (runTailAux combine bizErr (fns.filterMap fun f => f bizErr)).2 :=
  rfl

/-- Concrete multi-error combiner used in the concrete instances. -/
def combineS : List String → String :=
  fun l => String.intercalate "; " l

/-- C4 counterexample.  `Run` does not receive the participants as arguments:
two Managers constructed by `New` with different participant lists, called
with the identical `Run` arguments (the same business function), return
different results — the participants for an episode are supplied to `New`,
not per call to `Run` (manager.go line 30: `func (m *Manager) Run(run func()
error) (err error)`). -/
theorem run_participants_not_per_call_cex :
    (Manager.Run combineS (New []) none).2 = none
    ∧ (Manager.Run combineS (New [fun _ => some "disk-full"]) none).2
        = some "disk-full"
    ∧ (Manager.Run combineS (New []) none).2
        ≠ (Manager.Run combineS (New [fun _ => some "disk-full"]) none).2 :=
  ⟨rfl, rfl, by decide⟩

/-- Control points of one call to `Manager.Run` (manager.go lines 30-37) for
the mutual-exclusion model: `entry` — before `m.mux.Lock()`; `body k` — inside
`m.run` having taken `k` internal steps, holding the mutex; `ret` — after
`m.run` and the deferred `m.mux.Unlock()` have completed. -/
inductive RunPc : Type where
  | entry : RunPc
  | body : Nat → RunPc
  | ret : RunPc
deriving DecidableEq

/-- State of two concurrent calls to `Run` against one Manager instance: the
holder of `m.mux` (a `sync.Mutex`, embedded by its standard ownership
semantics), and each call's control point. -/
structure MuxSt : Type where
  lock : Option (Fin 2)
  pc : Fin 2 → RunPc

/-- Transition semantics of two concurrent `Run` calls whose body takes `L`
internal steps: `acquire` — `m.mux.Lock()` succeeds only when the mutex is
free; `bodyStep` — one internal step of `m.run` while holding the mutex;
`release` — `m.run` returns and the deferred `m.mux.Unlock()` frees the
mutex, so the lock is held for the whole body including teardown. -/
inductive MuxStep (L : Nat) : MuxSt → MuxSt → Prop where
  | acquire (s : MuxSt) (c : Fin 2) (hl : s.lock = none) (hp : s.pc c = .entry) :
      MuxStep L s { s with
        lock := some c,
        pc := fun d => if d = c then RunPc.body 0 else s.pc d }
  | bodyStep (s : MuxSt) (c : Fin 2) (k : Nat) (hp : s.pc c = .body k)
      (hk : k < L) :
      MuxStep L s { s with
        pc := fun d => if d = c then RunPc.body (k + 1) else s.pc d }
  | release (s : MuxSt) (c : Fin 2) (hp : s.pc c = .body L) :
      MuxStep L s { s with
        lock := none,
        pc := fun d => if d = c then RunPc.ret else s.pc d }

/-- Both calls pending, mutex free. -/
def muxInit : MuxSt := { lock := none, pc := fun _ => .entry }

/-- Reachable states of the two-caller mutual-exclusion system. -/
def MuxReachable (L : Nat) (s : MuxSt) : Prop :=
  Relation.ReflTransGen (MuxStep L) muxInit s

lemma mux_inv_step {L : Nat} {s s2 : MuxSt}
    (ih : ∀ c k, s.pc c = RunPc.body k → s.lock = some c)
    (hstep : MuxStep L s s2) :
    ∀ c k, s2.pc c = RunPc.body k → s2.lock = some c := by
  cases hstep with
  | acquire c hl hp =>
    intro d k hd
    have hd2 : (if d = c then RunPc.body 0 else s.pc d) = RunPc.body k := hd
    show some c = some d
    by_cases hdc : d = c
    · rw [hdc]
    · rw [if_neg hdc] at hd2
      have h2 := ih d k hd2
      rw [hl] at h2
      exact Option.noConfusion h2
  | bodyStep c k0 hp hk =>
    intro d k hd
    have hd2 : (if d = c then RunPc.body (k0 + 1) else s.pc d) = RunPc.body k := hd
    show s.lock = some d
    by_cases hdc : d = c
    · rw [hdc]; exact ih c k0 hp
    · rw [if_neg hdc] at hd2
      exact ih d k hd2
  | release c hp =>
    intro d k hd
    have hd2 : (if d = c then RunPc.ret else s.pc d) = RunPc.body k := hd
    show (none : Option (Fin 2)) = some d
    by_cases hdc : d = c
    · rw [if_pos hdc] at hd2
      exact RunPc.noConfusion hd2
    · rw [if_neg hdc] at hd2
      have h2 := ih d k hd2
      have h3 := ih c L hp
      exact absurd (Option.some.inj (h2.symm.trans h3)) hdc

lemma mux_inv {L : Nat} {s : MuxSt} (h : MuxReachable L s) :
    ∀ c k, s.pc c = RunPc.body k → s.lock = some c := by
  induction h with
  | refl => intro c k hc; exact RunPc.noConfusion hc
  | tail _ hstep ih => exact mux_inv_step ih hstep

/-- C8.  At most one `Run` call executes its body at a time against a given
Manager: in every reachable state of two concurrent calls, while one call is
inside the body (holding `m.mux`), the other has either not yet begun its body
or has fully returned — concurrent calls serialize (manager.go lines 30-37). -/
theorem run_mutual_exclusion (L : Nat) (s : MuxSt) (h : MuxReachable L s)
    (c c2 : Fin 2) (hne : c ≠ c2) (k : Nat) (hb : s.pc c = RunPc.body k) :
    s.pc c2 = RunPc.entry ∨ s.pc c2 = RunPc.ret := by
  have hlc := mux_inv h c k hb
  cases hp2 : s.pc c2 with
  | entry => exact Or.inl rfl
  | ret => exact Or.inr rfl
  | body k2 =>
    have hlc2 := mux_inv h c2 k2 hp2
    exact absurd (Option.some.inj (hlc.symm.trans hlc2)) hne

/-- Parameter list of the `TxnFn` type as declared in src/txnFn.go line 9:
`func(ctx context.Context, started *sync.WaitGroup, inboundC <-chan error,
outboundC chan<- error)`. -/
def txnFnParams : List String := ["ctx", "started", "inboundC", "outboundC"]

/-- Argument list of the participant invocation `fn(start, in, out)` inside
`openTxn`, src/manager.go line 128. -/
def openTxnCallArgs : List String := ["start", "in", "out"]

/-- C3.  The declared transaction-function shape and the Manager's invocation
of a participant disagree: `TxnFn` declares four parameters (a cancellation
context followed by the start signal, the receive-only inbound channel and the
send-only outbound channel) while `openTxn` invokes `fn` with exactly the
three arguments of the claim (start signal, inbound, outbound) — the package
does not type-check as written. -/
theorem txnFn_arity_mismatch :
    txnFnParams.length = 4 ∧ openTxnCallArgs.length = 3
    ∧ txnFnParams.length ≠ openTxnCallArgs.length :=
  ⟨rfl, rfl, by decide⟩

/-- Concrete one-participant episode: business function succeeds, the
participant reports "disk-full". -/
def sysA : Sys String 1 :=
  { bizErr := none, rep := fun _ _ => some "disk-full" }

/-- The single participant index. -/
def f0 : Fin 1 := ⟨0, Nat.zero_lt_one⟩

def dem0 : St String 1 := initSt String 1

def dem1 : St String 1 := { dem0 with mp := .opening 1 }

def dem2 : St String 1 :=
  { dem1 with ps := fun j => if j = f0 then PPhase.started else dem1.ps j }

def dem3 : St String 1 := { dem2 with mp := .pushing 0 }

def dem4 : St String 1 :=
  { dem3 with
    mp := .pushing 1,
    ins := fun j => if j = f0 then
        { buf := some sysA.bizErr, pushed := some sysA.bizErr,
          sentCount := (dem3.ins j).sentCount + 1, closed := true }
      else dem3.ins j }

def dem5 : St String 1 :=
  { dem4 with
    ps := fun j => if j = f0 then PPhase.received none else dem4.ps j,
    ins := fun j => if j = f0 then { dem4.ins j with buf := none } else dem4.ins j }

def dem6 : St String 1 :=
  { dem5 with
    ps := fun j => if j = f0 then PPhase.sentP else dem5.ps j,
    out := { dem5.out with sent := dem5.out.sent ++ ["disk-full"] } }

def dem7 : St String 1 :=
  { dem6 with ps := fun j => if j = f0 then PPhase.finishedP else dem6.ps j }

def dem8 : St String 1 :=
  { dem7 with
    mp := .done (runTailAux combineS sysA.bizErr dem7.out.sent).2,
    out := { dem7.out with closed := true } }

lemma reach_dem3 : Reachable combineS sysA dem3 := by
  have h01 : Step combineS sysA dem0 dem1 :=
    Step.submit dem0 0 Nat.zero_lt_one rfl
  have h12 : Step combineS sysA dem1 dem2 :=
    Step.pStart dem1 f0 rfl rfl
  have h23 : Step combineS sysA dem2 dem3 :=
    Step.bizRun dem2 rfl (by decide)
  exact Relation.ReflTransGen.tail
    (Relation.ReflTransGen.tail
      (Relation.ReflTransGen.tail Relation.ReflTransGen.refl h01) h12) h23

lemma reach_dem8 : Reachable combineS sysA dem8 := by
  have h34 : Step combineS sysA dem3 dem4 :=
    Step.push dem3 0 Nat.zero_lt_one rfl rfl rfl
  have h45 : Step combineS sysA dem4 dem5 :=
    Step.pRecv dem4 f0 none rfl rfl
  have h56 : Step combineS sysA dem5 dem6 :=
    Step.pSendErr dem5 f0 none "disk-full" rfl rfl (by decide) rfl
  have h67 : Step combineS sysA dem6 dem7 :=
    Step.pFinish dem6 f0 rfl
  have h78 : Step combineS sysA dem7 dem8 :=
    Step.closeOut dem7 rfl (by decide)
  exact Relation.ReflTransGen.tail
    (Relation.ReflTransGen.tail
      (Relation.ReflTransGen.tail
        (Relation.ReflTransGen.tail
          (Relation.ReflTransGen.tail reach_dem3 h34) h45) h56) h67) h78

/-- Concrete zero-participant episode: business function fails with
"validation-failed". -/
def sysZ : Sys String 0 :=
  { bizErr := some "validation-failed", rep := fun i => i.elim0 }

def zer0 : St String 0 := initSt String 0

def zer1 : St String 0 := { zer0 with mp := .pushing 0 }

def zer2 : St String 0 :=
  { zer1 with
    mp := .done (runTailAux combineS sysZ.bizErr zer1.out.sent).2,
    out := { zer1.out with closed := true } }

lemma reach_zer2 : Reachable combineS sysZ zer2 := by
  have h01 : Step combineS sysZ zer0 zer1 :=
    Step.bizRun zer0 rfl (fun j => j.elim0)
  have h12 : Step combineS sysZ zer1 zer2 :=
    Step.closeOut zer1 rfl (fun j => j.elim0)
  exact Relation.ReflTransGen.tail
    (Relation.ReflTransGen.tail Relation.ReflTransGen.refl h01) h12

/-- First caller. -/
def cal0 : Fin 2 := ⟨0, Nat.zero_lt_two⟩

/-- Second caller. -/
def cal1 : Fin 2 := ⟨1, Nat.one_lt_two⟩

def mx1 : MuxSt :=
  { muxInit with
    lock := some cal0,
    pc := fun d => if d = cal0 then RunPc.body 0 else muxInit.pc d }

def mx2 : MuxSt :=
  { mx1 with pc := fun d => if d = cal0 then RunPc.body (0 + 1) else mx1.pc d }

def mx3 : MuxSt :=
  { mx2 with
    lock := none,
    pc := fun d => if d = cal0 then RunPc.ret else mx2.pc d }

def mx4 : MuxSt :=
  { mx3 with
    lock := some cal1,
    pc := fun d => if d = cal1 then RunPc.body 0 else mx3.pc d }

lemma reach_mx4 : MuxReachable 1 mx4 := by
  have ha : MuxStep 1 muxInit mx1 :=
    MuxStep.acquire muxInit cal0 rfl rfl
  have hb : MuxStep 1 mx1 mx2 :=
    MuxStep.bodyStep mx1 cal0 0 rfl Nat.zero_lt_one
  have hc : MuxStep 1 mx2 mx3 :=
    MuxStep.release mx2 cal0 rfl
  have hd : MuxStep 1 mx3 mx4 :=
    MuxStep.acquire mx3 cal1 rfl rfl
  exact Relation.ReflTransGen.tail
    (Relation.ReflTransGen.tail
      (Relation.ReflTransGen.tail
        (Relation.ReflTransGen.tail Relation.ReflTransGen.refl ha) hb) hc) hd

/-- Witness for C1: in the concrete one-participant episode (business nil,
participant reports "disk-full"), the reached final state returns the
combined participant error. -/
theorem run_returns_biz_error_or_combined_witness :
    Reachable combineS sysA dem8
    ∧ dem8.mp = MPhase.done (some "disk-full")
    ∧ sysA.bizErr = none
    ∧ some "disk-full" = (newErrorsFromOutbound dem8.out.sent).err combineS
    ∧ dem8.out.sent = ["disk-full"] :=
  ⟨reach_dem8, rfl, rfl,
   ((run_returns_biz_error_or_combined combineS sysA dem8 (some "disk-full")
      reach_dem8 rfl).2.1 rfl).1,
   rfl⟩

/-- Witness for C2: in the reached final state of the concrete episode the
single inbound channel was pushed the business result exactly once. -/
theorem inbound_exactly_once_after_started_witness :
    Reachable combineS sysA dem8
    ∧ (dem8.ins f0).pushed = some sysA.bizErr
    ∧ (dem8.ins f0).sentCount = 1 :=
  ⟨reach_dem8,
   ((inbound_exactly_once_after_started combineS sysA dem8 reach_dem8).2.2
      (some "disk-full") rfl f0).1,
   ((inbound_exactly_once_after_started combineS sysA dem8 reach_dem8).2.2
      (some "disk-full") rfl f0).2⟩

/-- Witness for C5: in the reached final state of the concrete episode the
participant has finished and the outbound channel is closed. -/
theorem out_close_and_return_after_finished_witness :
    Reachable combineS sysA dem8
    ∧ dem8.ps f0 = PPhase.finishedP
    ∧ dem8.out.closed = true :=
  ⟨reach_dem8,
   ((out_close_and_return_after_finished combineS sysA dem8 reach_dem8).2
      (some "disk-full") rfl).1 f0,
   ((out_close_and_return_after_finished combineS sysA dem8 reach_dem8).2
      (some "disk-full") rfl).2⟩

/-- Witness for C7: the concrete zero-participant episode returns exactly the
business error. -/
theorem zero_participants_passthrough_witness :
    Reachable combineS sysZ zer2
    ∧ zer2.mp = MPhase.done (some "validation-failed")
    ∧ some "validation-failed" = sysZ.bizErr :=
  ⟨reach_zer2, rfl,
   zero_participants_passthrough combineS sysZ zer2 (some "validation-failed")
     reach_zer2 rfl⟩

/-- Witness for C8: after the first caller has fully returned and the second
has entered the body, the first is observed outside the body. -/
theorem run_mutual_exclusion_witness :
    MuxReachable 1 mx4
    ∧ cal1 ≠ cal0
    ∧ mx4.pc cal1 = RunPc.body 0
    ∧ (mx4.pc cal0 = RunPc.entry ∨ mx4.pc cal0 = RunPc.ret) :=
  ⟨reach_mx4, by decide, rfl,
   run_mutual_exclusion 1 mx4 reach_mx4 cal1 cal0 (by decide) 0 rfl⟩

/-- Witness for C10: in the reached state where the manager is about to send
on inbound channel 0, that channel is empty, open and never sent to. -/
theorem push_never_blocks_witness :
    Reachable combineS sysA dem3
    ∧ dem3.mp = MPhase.pushing 0
    ∧ (dem3.ins f0).buf = none
    ∧ (dem3.ins f0).closed = false
    ∧ (dem3.ins f0).sentCount = 0 :=
  ⟨reach_dem3, rfl,
   ((push_never_blocks combineS sysA dem3 reach_dem3).1 0 Nat.zero_lt_one rfl).1,
   ((push_never_blocks combineS sysA dem3 reach_dem3).1 0 Nat.zero_lt_one rfl).2.1,
   ((push_never_blocks combineS sysA dem3 reach_dem3).1 0 Nat.zero_lt_one rfl).2.2⟩

end TxnMgr
